import Mathlib

/-!
Verification of the mailst mail-merge core: a shallow embedding in Lean 4 of
the recipient/column data-binding model, the persisted sent-log, and the
Mailer filtering/delivery loop, translated from `src/mailst/address.py`,
`src/mailst/sent_log.py` and `src/mailst/main.py`.

Modelling conventions:
- Python strings are Lean `String`s; where character-level work is needed
  (name capitalization, decimal parsing) we work on the `List Char` data.
- Python `datetime` timestamps are modelled as `Nat` instants; `isoformat`
  round-trips a `datetime` exactly, so a structured timestamp field models a
  log line's timestamp column.
- The sent-log file is modelled as the list of its structured
  `email,action,timestamp` lines (appends put lines at the end; the file is
  never truncated).
- Python `dict` state is modelled as a lookup function; dict keys produced by
  `self.sent_to[address.email]` are `Option String` (Python `None` is a
  possible key), while keys parsed back from the file are always strings.
- Exceptions are modelled with `Except`.
-/

namespace Mailst

/-- Python class `address.Address`: an email participant; both attributes
default to `None` in the constructor. -/
structure Address where
  email : Option String
  full_name : Option String
deriving DecidableEq

/-- `Address.__eq__`: equality tests only the `email` attribute
(`self.email == other.email`); the `isinstance` test always succeeds here
because both arguments are `Address`es. -/
def Address.pyEq (a b : Address) : Bool :=
  a.email == b.email

/-- `Address.__hash__` delegates to Python's `hash(self.email)`; the Python
hash function itself is an unspecified function of the email value, taken
here as a parameter. -/
def Address.pyHash (h : Option String → Nat) (a : Address) : Nat :=
  h a.email

/-- `sent_log.Action`: the two event kinds of the sent-log file. -/
inductive Action where
  | send
  | forget
deriving DecidableEq

/-- One structured line of the sent-log file: `email,action,timestamp`. -/
structure LogLine where
  email : String
  action : Action
  timestamp : Nat
deriving DecidableEq

/-- Python f-string rendering of `address.email` when the line is written:
a string is written as itself, `None` is written as the text `None`. -/
def fmtOptStr : Option String → String
  | some s => s
  | none => "None"

/-- `sent_log.SentLog`: the in-memory mapping `sent_to` (Python dict keyed by
the raw `address.email` value) together with the append-only backing file. -/
structure SentLog where
  sent_to : Option String → Option Nat
  file : List LogLine

/-- `SentLog.__contains__`: `address.email in self.sent_to`. -/
def SentLog.containsAddr (log : SentLog) (a : Address) : Bool :=
  (log.sent_to a.email).isSome

/-- `SentLog.add`: set `sent_to[address.email] = timestamp` and append a
`send` line to the file. -/
def SentLog.add (log : SentLog) (a : Address) (timestamp : Nat) : SentLog :=
  { sent_to := fun k => if k = a.email then some timestamp else log.sent_to k
    file := log.file ++ [LogLine.mk (fmtOptStr a.email) Action.send timestamp] }

/-- `SentLog.forget`: if `address.email` is a key of `sent_to`, delete it and
append a `forget` line stamped with the current time; otherwise do nothing. -/
def SentLog.forget (log : SentLog) (a : Address) (now : Nat) : SentLog :=
  if (log.sent_to a.email).isSome then
    { sent_to := fun k => if k = a.email then none else log.sent_to k
      file := log.file ++ [LogLine.mk (fmtOptStr a.email) Action.forget now] }
  else log

/-- One step of `SentLog._load_from_file`'s replay loop: a `send` line sets
or overwrites the timestamp for its email, a `forget` line removes the email
if present (pointwise, removal of an absent key is a no-op). Keys parsed from
the file are strings. -/
def applyLine (m : Option String → Option Nat) (l : LogLine) :
    Option String → Option Nat :=
  match l.action with
  | Action.send => fun k => if k = some l.email then some l.timestamp else m k
  | Action.forget => fun k => if k = some l.email then none else m k

/-- `SentLog._load_from_file` as run from `SentLog.__init__`: starting from
the empty mapping, replay every line of the file in order. -/
def loadFromFile (file : List LogLine) : Option String → Option Nat :=
  file.foldl applyLine (fun _ => none)

/-- Numeric value of a list of decimal digit characters, most significant
first (the usual positional reading used by Python's decimal parser). -/
def digitsVal (l : List Char) : Nat :=
  l.foldl (fun a c => a * 10 + (c.toNat - 48)) 0

/-- Optional exponent suffix of a decimal literal: empty, or `e`/`E`, an
optional sign, and at least one digit consuming the rest of the string.
Applies the exponent to the already-parsed significand. -/
def withExp (q : ℚ) (s : List Char) : Option ℚ :=
  match s with
  | [] => some q
  | c :: r =>
    if c = 'e' ∨ c = 'E' then
      match r with
      | '+' :: rr =>
        let ds := rr.takeWhile Char.isDigit
        if ds = [] ∨ rr.dropWhile Char.isDigit ≠ [] then none
        else some (q * (10 : ℚ) ^ digitsVal ds)
      | '-' :: rr =>
        let ds := rr.takeWhile Char.isDigit
        if ds = [] ∨ rr.dropWhile Char.isDigit ≠ [] then none
        else some (q / (10 : ℚ) ^ digitsVal ds)
      | rr =>
        let ds := rr.takeWhile Char.isDigit
        if ds = [] ∨ rr.dropWhile Char.isDigit ≠ [] then none
        else some (q * (10 : ℚ) ^ digitsVal ds)
    else none

/-- Unsigned decimal literal: `digits [. digits] [exponent]` with at least
one digit in the integer or fractional part. The exact decimal value is
represented as a rational. -/
def parseUnsigned (s : List Char) : Option ℚ :=
  let intPart := s.takeWhile Char.isDigit
  let rest := s.dropWhile Char.isDigit
  match rest with
  | '.' :: r =>
    let fracPart := r.takeWhile Char.isDigit
    let rest2 := r.dropWhile Char.isDigit
    if intPart = [] ∧ fracPart = [] then none
    else
      withExp ((digitsVal intPart : ℚ) +
        (digitsVal fracPart : ℚ) / (10 : ℚ) ^ fracPart.length) rest2
  | r =>
    if intPart = [] then none
    else withExp (digitsVal intPart : ℚ) r

/-- `decimal.Decimal(value)` on the finite-decimal literal grammar
`[sign] digits [. digits] [(e|E) [sign] digits]` (the special forms
`Infinity`/`NaN` and embedded whitespace or underscores are outside the
model): `some` exact rational value on success, `none` when the constructor
raises `decimal.InvalidOperation`. -/
def parseDecimal (s : List Char) : Option ℚ :=
  match s with
  | '+' :: r => parseUnsigned r
  | '-' :: r => (parseUnsigned r).map (fun q => -q)
  | r => parseUnsigned r

/-- The character substitution performed by `re.sub(",", ".", value)`. -/
def commaFixChar (c : Char) : Char :=
  if c = ',' then '.' else c

/-- `if "," in value: value = re.sub(",", ".", value)` from
`GradeColumn.grade`. -/
def commaFix (s : List Char) : List Char :=
  if ',' ∈ s then s.map commaFixChar else s

/-- Python `str.upper` on one code point, over the modelled repertoire
(ASCII letters, Latin-1 letters except the expanding `ß`, and `ÿ`/`Ÿ`);
other code points are unchanged. -/
def upCode (n : Nat) : Nat :=
  if 97 ≤ n ∧ n ≤ 122 then n - 32
  else if 224 ≤ n ∧ n ≤ 254 ∧ n ≠ 247 then n - 32
  else if n = 255 then 376
  else n

/-- Python `str.lower` on one code point, over the modelled repertoire. -/
def downCode (n : Nat) : Nat :=
  if 65 ≤ n ∧ n ≤ 90 then n + 32
  else if 192 ≤ n ∧ n ≤ 222 ∧ n ≠ 215 then n + 32
  else if n = 376 then 255
  else n

/-- Python `str.isupper` on one code point (modelled repertoire). -/
def isUpperCode (n : Nat) : Bool :=
  decide ((65 ≤ n ∧ n ≤ 90) ∨ (192 ≤ n ∧ n ≤ 222 ∧ n ≠ 215) ∨ n = 376)

/-- Python `str.islower` on one code point (modelled repertoire). -/
def isLowerCode (n : Nat) : Bool :=
  decide ((97 ≤ n ∧ n ≤ 122) ∨ (224 ≤ n ∧ n ≤ 254 ∧ n ≠ 247) ∨ n = 255)

/-- Python `str.swapcase` on one code point: uppercase becomes lowercase,
lowercase becomes uppercase, everything else is unchanged. -/
def swapCode (n : Nat) : Nat :=
  if isUpperCode n then downCode n
  else if isLowerCode n then upCode n
  else n

/-- The code points Python's `str.strip` removes (the `str.isspace` set). -/
def wsCode (n : Nat) : Bool :=
  decide ((9 ≤ n ∧ n ≤ 13) ∨ (28 ≤ n ∧ n ≤ 32) ∨ n = 133 ∨ n = 160 ∨
    n = 5760 ∨ (8192 ≤ n ∧ n ≤ 8202) ∨ n = 8232 ∨ n = 8233 ∨ n = 8239 ∨
    n = 8287 ∨ n = 12288)

/-- `str.upper` on one character. -/
def pyUpperChar (c : Char) : Char :=
  Char.ofNat (upCode c.toNat)

/-- `str.lower` on one character. -/
def pyLowerChar (c : Char) : Char :=
  Char.ofNat (downCode c.toNat)

/-- `str.swapcase` on one character. -/
def pySwapChar (c : Char) : Char :=
  Char.ofNat (swapCode c.toNat)

/-- Whether `str.strip` removes this character. -/
def pyIsSpace (c : Char) : Bool :=
  wsCode c.toNat

/-- Python `str.capitalize`: first character to upper case (title case and
upper case coincide on the modelled repertoire), the rest to lower case. -/
def pyCapitalize : List Char → List Char
  | [] => []
  | c :: r => pyUpperChar c :: r.map pyLowerChar

/-- Python `str.split(sep)` for a one-character separator: the list of
(possibly empty) chunks between separator occurrences; the empty string
yields `[[]]`. -/
def splitOnChar (sep : Char) : List Char → List (List Char)
  | [] => [[]]
  | c :: r =>
    match splitOnChar sep r with
    | [] => [[c]]
    | t :: ts => if c = sep then [] :: t :: ts else (c :: t) :: ts

/-- Python `sep.join(parts)` for a one-character separator. -/
def joinWithChar (sep : Char) : List (List Char) → List Char
  | [] => []
  | [t] => t
  | t :: ts => t ++ sep :: joinWithChar sep ts

/-- Python `str.strip()`: remove leading and trailing whitespace. -/
def pyStrip (l : List Char) : List Char :=
  (l.dropWhile pyIsSpace).rdropWhile pyIsSpace

/-- Trim the empty chunks at both ends of a chunk list: the chunk-level
picture of what `strip` does to a string rebuilt by `join`. -/
def trimParts (parts : List (List Char)) : List (List Char) :=
  (parts.dropWhile List.isEmpty).rdropWhile List.isEmpty

/-- The hyphen pass of `NameColumn._uncapitalize`:
`for j in range(1, len(parts)): parts[j] = parts[j].capitalize()` — every
hyphen-separated part except the first is capitalized. -/
def capParts : List (List Char) → List (List Char)
  | [] => []
  | p :: ps => p :: ps.map pyCapitalize

/-- One space-token's hyphen treatment in `NameColumn._uncapitalize`:
split the token on `-`, capitalize every part after the first, and rejoin
with `-`. -/
def hyphenFix (t : List Char) : List Char :=
  joinWithChar '-' (capParts (splitOnChar '-' t))

/-- `NameColumn._uncapitalize(name)`: split on single spaces, swap-case then
capitalize each token, run the hyphen pass on each token, rejoin with
spaces, and strip surrounding whitespace. -/
def uncapitalize (name : List Char) : List Char :=
  pyStrip (joinWithChar ' '
    (((splitOnChar ' ' name).map
      (fun n => pyCapitalize (n.map pySwapChar))).map hyphenFix))

/-- The distinct `ValueError`s that `GradeColumn.grade` raises: a failed
decimal parse (message naming the original raw string), a value above the
configured maximum, a value below the configured minimum (the latter two are
the spec's `GradeOutOfRange` condition; each message names the offending
value, the column key and the violated bound). -/
inductive GradeError where
  | wrongFormat (original : List Char)
  | aboveMax (value : ℚ) (key : String) (maxGrade : ℚ)
  | belowMin (value : ℚ) (key : String) (minGrade : ℚ)
deriving DecidableEq

/-- The result of a successful `GradeColumn.grade`: the sentinel string `-`
for a blank grade, or the parsed decimal value. -/
inductive GradeValue where
  | sentinelDash
  | value (q : ℚ)
deriving DecidableEq

/-- Python class `GradeColumn`: constructor defaults are
`max_grade=None, min_grade=0.0, check_max=True`. -/
structure GradeColumn where
  key : String
  max_grade : Option ℚ
  min_grade : Option ℚ
  check_max : Bool
deriving DecidableEq

/-- The min-bound check at the end of `GradeColumn.grade`:
`if self.min_grade is not None and result < self.min_grade: raise ...`. -/
def GradeColumn.checkMin (col : GradeColumn) (result : ℚ) :
    Except GradeError GradeValue :=
  match col.min_grade with
  | some m =>
    if result < m then Except.error (GradeError.belowMin result col.key m)
    else Except.ok (GradeValue.value result)
  | none => Except.ok (GradeValue.value result)

/-- The max-bound check of `GradeColumn.grade`:
`if self.check_max and self.max_grade is not None and result > self.max_grade:
raise ...`, falling through to the min check. -/
def GradeColumn.checkBounds (col : GradeColumn) (result : ℚ) :
    Except GradeError GradeValue :=
  match col.max_grade with
  | some M =>
    if col.check_max = true ∧ M < result then
      Except.error (GradeError.aboveMax result col.key M)
    else col.checkMin result
  | none => col.checkMin result

/-- `GradeColumn.grade(value)` on the character list of the raw string:
empty input yields the sentinel; otherwise commas become periods, the string
is parsed as a decimal (parse failure raises the wrong-format error naming
the original string), and the bound checks run on the parsed value. -/
def GradeColumn.grade (col : GradeColumn) (value : List Char) :
    Except GradeError GradeValue :=
  if value = [] then Except.ok GradeValue.sentinelDash
  else
    match parseDecimal (commaFix value) with
    | none => Except.error (GradeError.wrongFormat value)
    | some result => col.checkBounds result

/-- `AttachmentFile` as built at bind time by `FileColumn.as_dict`: the
resolved filename and the optional content type (the derived MIME main
type/subtype and the render-time file reading are outside the modelled
core). -/
structure AttachmentFile where
  filename : String
  content_type : Option String
deriving DecidableEq

/-- `FileColumn._get_filename`: substitute the raw value into the filename
template when one is configured (single positional `str.format`
substitution, modelled as replacing the `\x7b\x7d` placeholder), else use the
value verbatim; then prefix the base path when configured. -/
def getFilename (base_path filename_template : Option String)
    (value : String) : String :=
  let filename :=
    match filename_template with
    | none => value
    | some t => t.replace "\x7b\x7d" value
  match base_path with
  | none => filename
  | some b => b ++ "/" ++ filename

/-- The values a column binding can place on a recipient attribute:
strings (text, name and email columns), a grade result or the grade
maximum (grade columns), or an attachment descriptor (file columns). -/
inductive Value where
  | str (s : String)
  | gradeVal (g : GradeValue)
  | maxVal (q : ℚ)
  | file (f : AttachmentFile)
deriving DecidableEq

/-- The string carried by a `Value`; the email and full-name columns only
ever produce string values, so this is what reaches `Address.email` and
`Address.full_name`. -/
def Value.asString : Value → String
  | Value.str s => s
  | _ => ""

/-- The `Column` family of `main.py` as a closed variant type: the base
`Column` (plain text), `EmailColumn`, `NameColumn` (with its
`is_full_name` flag), `GradeColumn` and `FileColumn`. -/
inductive Column where
  | text (key : String)
  | email (key : String)
  | name (key : String) (is_full_name : Bool)
  | grade (g : GradeColumn)
  | file (key : String) (base_path : Option String)
      (filename_template : Option String) (content_type : Option String)
deriving DecidableEq

/-- `FullNameColumn(key)` is `NameColumn(key, is_full_name=True)`. -/
def FullNameColumn (key : String) : Column :=
  Column.name key true

/-- The `is_email` flag of a column. -/
def Column.is_email : Column → Bool
  | Column.email _ => true
  | _ => false

/-- The `is_file` flag of a column. -/
def Column.is_file : Column → Bool
  | Column.file _ _ _ _ => true
  | _ => false

/-- The `is_full_name` flag of a column. -/
def Column.is_full_name : Column → Bool
  | Column.name _ b => b
  | _ => false

/-- `as_dict` of each column variant, as the ordered list of the produced
Python dict's items (3.7+ dicts preserve insertion order). The name variants
add the `…_uncapitalized` derived key after the raw one; the grade variant
adds `…_max` after the grade when a maximum is configured, and propagates
`grade`'s errors. -/
def Column.as_dict (col : Column) (value : String) :
    Except GradeError (List (String × Value)) :=
  match col with
  | Column.text key => Except.ok [(key, Value.str value)]
  | Column.email key => Except.ok [(key, Value.str value)]
  | Column.name key _ =>
    Except.ok [(key, Value.str value),
      (key ++ "_uncapitalized", Value.str (String.mk (uncapitalize value.data)))]
  | Column.grade g =>
    match g.grade value.data with
    | Except.error e => Except.error e
    | Except.ok gv =>
      match g.max_grade with
      | some M =>
        Except.ok [(g.key, Value.gradeVal gv), (g.key ++ "_max", Value.maxVal M)]
      | none => Except.ok [(g.key, Value.gradeVal gv)]
  | Column.file key base tmpl ct =>
    Except.ok [(key, Value.file (AttachmentFile.mk (getFilename base tmpl value) ct))]

/-- `setattr(self, key, value)` on the dynamic attribute mapping:
overwrite the existing binding for the key, else append a new one. -/
def setAttr (attrs : List (String × Value)) (k : String) (v : Value) :
    List (String × Value) :=
  if attrs.any (fun kv => kv.1 == k) then
    attrs.map (fun kv => if kv.1 == k then (k, v) else kv)
  else attrs ++ [(k, v)]

/-- Python class `Recipient`: the bound address, the ordered list of file
columns seen so far, the dynamic attribute mapping, and the result of the
`exclude()` hook (the base class returns `False`; per spec §Recipient it is
an overridable manual never-mail flag, so it is carried as data). -/
structure Recipient where
  address : Address
  file_columns : List Column
  attrs : List (String × Value)
  exclude : Bool

/-- `Recipient.set_column`: iterate over `column.as_dict(value).items()`,
setting every produced attribute except the literal key `email`; the loop
rebinds the `value` variable, so after the loop it holds the dict's last
value (the dict is never empty). Then: a full-name column assigns that
rebound value to `address.full_name`; an email column assigns it to
`address.email`; a file column is appended to `file_columns`. -/
def Recipient.set_column (r : Recipient) (col : Column) (v : String) :
    Except GradeError Recipient :=
  match col.as_dict v with
  | Except.error e => Except.error e
  | Except.ok items =>
    let newAttrs := items.foldl
      (fun a kv => if kv.1 ≠ "email" then setAttr a kv.1 kv.2 else a) r.attrs
    let r1 : Recipient := { r with attrs := newAttrs }
    let value := items.foldl (fun _ kv => kv.2) (Value.str v)
    if col.is_full_name then
      Except.ok { r1 with address := { r1.address with full_name := some value.asString } }
    else if col.is_email then
      Except.ok { r1 with address := { r1.address with email := some value.asString } }
    else if col.is_file then
      Except.ok { r1 with file_columns := r1.file_columns ++ [col] }
    else
      Except.ok r1

/-- Python `x in list` membership for a possibly-`None` email against a list
of strings (`None` is never a member of a list of strings). -/
def optEmailMem (e : Option String) (l : List String) : Bool :=
  match e with
  | some s => l.contains s
  | none => false

/-- Python class `Mailer` (the fields the filtering and delivery logic
reads; the SMTP server name, template text and printing are transport and
rendering concerns outside the modelled core). `send_only_to` and `exclude`
default to the empty list. -/
structure Mailer where
  subject : String
  recipients : List Recipient
  from_address : Address
  cc_addresses : List Address
  error_on_missing_attachments : Bool
  send_only_to : List String
  exclude : List String

/-- `Mailer._filter_recipients()`: the list comprehension keeping `r` iff
`not r.exclude()`, `r.address not in sent_log.log`, `send_only_to` falsy or
`r.address.email in send_only_to`, and `r.address.email not in exclude`.
The process-wide `sent_log.log` singleton is passed explicitly. -/
def Mailer.filter_recipients (m : Mailer) (log : SentLog) : List Recipient :=
  m.recipients.filter (fun r =>
    !r.exclude && !(log.containsAddr r.address) &&
    (m.send_only_to.isEmpty || optEmailMem r.address.email m.send_only_to) &&
    !(optEmailMem r.address.email m.exclude))

/-- The observable outcome of `Mailer.send`: the final sent-log state, the
`num_emails` counter, and how many times `time.sleep(delay)` ran. -/
structure SendOutcome where
  log : SentLog
  num_emails : Nat
  delays : Nat

/-- The `for recipient in self._filter_recipients()` loop body of
`Mailer.send`: build the message (rendering is outside the model); when not
simulating and no `alt_to_address` override is set, `sent_log.log.add` the
recipient at the current time; increment `num_emails`; break when
`max_num_emails` is truthy and reached (skipping the sleep); otherwise
sleep when a delay is configured and continue. `times i` is the wall-clock
instant `datetime.datetime.now()` returns for the `i`-th processed
message. -/
def sendLoop (log : SentLog) (recips : List Recipient) (simulate : Bool)
    (alt_to_address : Option Address) (max_num_emails : Nat)
    (delay : Option Nat) (times : Nat → Nat)
    (num_emails delays : Nat) : SendOutcome :=
  match recips with
  | [] => SendOutcome.mk log num_emails delays
  | r :: rest =>
    let log1 :=
      if simulate = false ∧ alt_to_address = none then
        log.add r.address (times num_emails)
      else log
    let num1 := num_emails + 1
    if max_num_emails ≠ 0 ∧ max_num_emails ≤ num1 then
      SendOutcome.mk log1 num1 delays
    else
      let delays1 := if delay.isSome then delays + 1 else delays
      sendLoop log1 rest simulate alt_to_address max_num_emails delay times
        num1 delays1

/-- `Mailer.send`: filter the recipients once against the starting log
state, then run the delivery loop from zero counters. -/
def Mailer.send (m : Mailer) (log : SentLog) (simulate : Bool)
    (alt_to_address : Option Address) (max_num_emails : Nat)
    (delay : Option Nat) (times : Nat → Nat) : SendOutcome :=
  sendLoop log (m.filter_recipients log) simulate alt_to_address
    max_num_emails delay times 0 0

/-- The `for` loop of `Mailer.test`: print a test rendering per filtered
recipient (rendering is outside the model), increment `num_emails`, and
break when `max_num_emails` is truthy and reached. The loop body contains
no sent-log operation, so the log state is threaded through unchanged. -/
def testLoop (log : SentLog) (recips : List Recipient)
    (max_num_emails num_emails : Nat) : SentLog × Nat :=
  match recips with
  | [] => (log, num_emails)
  | _ :: rest =>
    let num1 := num_emails + 1
    if max_num_emails ≠ 0 ∧ max_num_emails ≤ num1 then (log, num1)
    else testLoop log rest max_num_emails num1

/-- `Mailer.test`: filter against the log and run the dry-render loop. -/
def Mailer.test (m : Mailer) (log : SentLog) (max_num_emails : Nat) :
    SentLog × Nat :=
  testLoop log (m.filter_recipients log) max_num_emails 0

/-- The sent-log state after really delivering to a list of recipients in
order, stamping the `i`-th with `times i`: the expected net effect of a
non-simulated, non-overridden `Mailer.send` run. -/
def addAll (log : SentLog) (rs : List Recipient) (times : Nat → Nat)
    (i : Nat) : SentLog :=
  match rs with
  | [] => log
  | r :: rest => addAll (log.add r.address (times i)) rest times (i + 1)

end Mailst

namespace Mailst

/-- C9: two `Address`es are `__eq__`-equal exactly when their `email`
attributes are equal as values (for string emails, case-sensitive exact
string comparison); the display name plays no role; and `__eq__`-equal
addresses have equal `__hash__` values for every underlying hash function. -/
theorem address_eq_iff_email_eq (a b : Address) :
    (Address.pyEq a b = true ↔ a.email = b.email) ∧
    (Address.pyEq a b = true →
      ∀ h : Option String → Nat, Address.pyHash h a = Address.pyHash h b) := by
  constructor
  · simp [Address.pyEq]
  · intro heq h
    simp [Address.pyEq] at heq
    simp [Address.pyHash, heq]

/-- Witness for C9 at concrete inputs: equal emails with different display
names compare equal and hash alike; different emails compare unequal. -/
theorem address_eq_iff_email_eq_witness :
    Address.pyEq (Address.mk (some "a@x.com") (some "Ana"))
      (Address.mk (some "a@x.com") (some "Bob")) = true ∧
    Address.pyHash (fun _ => 7) (Address.mk (some "a@x.com") (some "Ana")) =
      Address.pyHash (fun _ => 7) (Address.mk (some "a@x.com") (some "Bob")) ∧
    Address.pyEq (Address.mk (some "a@x.com") none)
      (Address.mk (some "b@x.com") none) = false := by
  refine ⟨?_, ?_, ?_⟩
  · exact (address_eq_iff_email_eq _ _).1.mpr rfl
  · exact (address_eq_iff_email_eq (Address.mk (some "a@x.com") (some "Ana"))
      (Address.mk (some "a@x.com") (some "Bob"))).2
      ((address_eq_iff_email_eq _ _).1.mpr rfl) (fun _ => 7)
  · decide

/-- C2: from any sent-log state, `add a t` appends a `send` line whose replay
maps `a`'s email to exactly `t`; the subsequent `forget a` appends a `forget`
line whose replay removes the email again, while the earlier `send` line is
still physically present in the (append-only) file. -/
theorem sentlog_add_forget_roundtrip (log : SentLog) (a : Address)
    (t now : Nat) (e : String) (he : a.email = some e) :
    loadFromFile (log.add a t).file (some e) = some t ∧
    loadFromFile ((log.add a t).forget a now).file (some e) = none ∧
    LogLine.mk e Action.send t ∈ ((log.add a t).forget a now).file ∧
    ((log.add a t).forget a now).file =
      log.file ++ [LogLine.mk e Action.send t, LogLine.mk e Action.forget now] := by
  have hfire : ((log.add a t).sent_to a.email).isSome = true := by
    simp [SentLog.add]
  refine ⟨?_, ?_, ?_, ?_⟩
  · simp [SentLog.add, loadFromFile, List.foldl_append, applyLine, he, fmtOptStr]
  · simp [SentLog.forget, hfire, SentLog.add, loadFromFile, List.foldl_append,
      applyLine, he, fmtOptStr]
  · simp [SentLog.forget, hfire, SentLog.add, he, fmtOptStr]
  · simp [SentLog.forget, hfire, SentLog.add, he, fmtOptStr]

/-- Characters with equal code points are equal. -/
theorem char_toNat_inj (a b : Char) (h : a.toNat = b.toNat) : a = b := by
  apply Char.ext
  have hbv : a.val.toBitVec = b.val.toBitVec := by
    apply BitVec.eq_of_toNat_eq
    exact h
  exact UInt32.ext_iff.mpr (congrArg BitVec.toNat hbv)

/-- A `Char`'s code point is a valid scalar value. -/
theorem char_code_valid (c : Char) :
    c.toNat < 55296 ∨ 57343 < c.toNat ∧ c.toNat < 1114112 :=
  c.valid

/-- `Char.ofNat` round-trips on valid scalar values. -/
theorem toNat_ofNat_valid (n : Nat)
    (h : n < 55296 ∨ 57343 < n ∧ n < 1114112) : (Char.ofNat n).toNat = n := by
  have h' : n.isValidChar := h
  simp only [Char.ofNat, dif_pos h']
  simp only [Char.ofNatAux, Char.toNat, UInt32.toNat]
  simp

/-- `upCode` outputs valid scalar values on valid inputs. -/
theorem upCode_valid (c : Char) :
    upCode c.toNat < 55296 ∨ 57343 < upCode c.toNat ∧ upCode c.toNat < 1114112 := by
  have := char_code_valid c
  unfold upCode
  split_ifs <;> omega

/-- `downCode` outputs valid scalar values on valid inputs. -/
theorem downCode_valid (c : Char) :
    downCode c.toNat < 55296 ∨
      57343 < downCode c.toNat ∧ downCode c.toNat < 1114112 := by
  have := char_code_valid c
  unfold downCode
  split_ifs <;> omega

/-- `swapCode` outputs valid scalar values on valid inputs. -/
theorem swapCode_valid (c : Char) :
    swapCode c.toNat < 55296 ∨
      57343 < swapCode c.toNat ∧ swapCode c.toNat < 1114112 := by
  have := char_code_valid c
  unfold swapCode isUpperCode isLowerCode upCode downCode
  split_ifs <;> omega

/-- Code-point characterization of `pyUpperChar`. -/
theorem pyUpperChar_toNat (c : Char) : (pyUpperChar c).toNat = upCode c.toNat :=
  toNat_ofNat_valid _ (upCode_valid c)

/-- Code-point characterization of `pyLowerChar`. -/
theorem pyLowerChar_toNat (c : Char) : (pyLowerChar c).toNat = downCode c.toNat :=
  toNat_ofNat_valid _ (downCode_valid c)

/-- Code-point characterization of `pySwapChar`. -/
theorem pySwapChar_toNat (c : Char) : (pySwapChar c).toNat = swapCode c.toNat :=
  toNat_ofNat_valid _ (swapCode_valid c)

/-- Upper-casing an already upper-cased character changes nothing. -/
theorem up_up (c : Char) : pyUpperChar (pyUpperChar c) = pyUpperChar c := by
  apply char_toNat_inj
  simp only [pyUpperChar_toNat]
  unfold upCode
  split_ifs <;> omega

/-- Lower-casing an already lower-cased character changes nothing. -/
theorem low_low (c : Char) : pyLowerChar (pyLowerChar c) = pyLowerChar c := by
  apply char_toNat_inj
  simp only [pyLowerChar_toNat]
  unfold downCode
  split_ifs <;> omega

/-- Upper-casing after lower-casing equals upper-casing directly. -/
theorem up_low (c : Char) : pyUpperChar (pyLowerChar c) = pyUpperChar c := by
  apply char_toNat_inj
  simp only [pyUpperChar_toNat, pyLowerChar_toNat]
  unfold upCode downCode
  split_ifs <;> omega

/-- Lower-casing after upper-casing equals lower-casing directly. -/
theorem low_up (c : Char) : pyLowerChar (pyUpperChar c) = pyLowerChar c := by
  apply char_toNat_inj
  simp only [pyUpperChar_toNat, pyLowerChar_toNat]
  unfold upCode downCode
  split_ifs <;> omega

/-- Upper-casing after swap-casing equals upper-casing directly. -/
theorem up_swap (c : Char) : pyUpperChar (pySwapChar c) = pyUpperChar c := by
  apply char_toNat_inj
  simp only [pyUpperChar_toNat, pySwapChar_toNat]
  unfold swapCode isUpperCode isLowerCode upCode downCode
  split_ifs <;> omega

/-- Lower-casing after swap-casing equals lower-casing directly. -/
theorem low_swap (c : Char) : pyLowerChar (pySwapChar c) = pyLowerChar c := by
  apply char_toNat_inj
  simp only [pyLowerChar_toNat, pySwapChar_toNat]
  unfold swapCode isUpperCode isLowerCode upCode downCode
  split_ifs <;> omega

/-- The case maps fix the hyphen and never produce one from another
character. -/
theorem pyUpperChar_eq_hyphen (c : Char) : pyUpperChar c = '-' ↔ c = '-' := by
  constructor
  · intro h
    apply char_toNat_inj
    have := congrArg Char.toNat h
    rw [pyUpperChar_toNat] at this
    revert this
    unfold upCode
    split_ifs <;> (intro h2; simp_all; try omega)
  · intro h
    subst h
    rfl

/-- The lower-case map fixes the hyphen and never produces one. -/
theorem pyLowerChar_eq_hyphen (c : Char) : pyLowerChar c = '-' ↔ c = '-' := by
  constructor
  · intro h
    apply char_toNat_inj
    have := congrArg Char.toNat h
    rw [pyLowerChar_toNat] at this
    revert this
    unfold downCode
    split_ifs <;> (intro h2; simp_all; try omega)
  · intro h
    subst h
    rfl

/-- A character that went through the comma substitution is never a comma. -/
theorem commaFixChar_ne_comma (c : Char) : commaFixChar c ≠ ',' := by
  unfold commaFixChar
  split
  · decide
  · assumption

/-- The comma substitution is the identity on comma-free strings. -/
theorem map_commaFixChar_of_no_comma (s : List Char) (h : ',' ∉ s) :
    s.map commaFixChar = s := by
  induction s with
  | nil => rfl
  | cons c r ih =>
    simp only [List.mem_cons] at h
    push_neg at h
    simp [commaFixChar, Ne.symm h.1, ih h.2]

/-- `commaFix` (with its `if "," in value` guard) coincides with the
unconditional per-character substitution. -/
theorem commaFix_eq_map (s : List Char) : commaFix s = s.map commaFixChar := by
  unfold commaFix
  split
  · rfl
  · rw [map_commaFixChar_of_no_comma]
    assumption

/-- A comma-substituted string contains no comma. -/
theorem no_comma_in_map (s : List Char) : ',' ∉ s.map commaFixChar := by
  intro hmem
  obtain ⟨c, _, he⟩ := List.mem_map.mp hmem
  exact commaFixChar_ne_comma c he

/-- `commaFix` is the identity on an already comma-substituted string. -/
theorem commaFix_map (s : List Char) :
    commaFix (s.map commaFixChar) = s.map commaFixChar := by
  rw [commaFix_eq_map, map_commaFixChar_of_no_comma _ (no_comma_in_map s)]

/-- C7: a blank grade is valid and means ungraded: `GradeColumn.grade` on the
empty string returns the sentinel `-` and raises nothing, for every
configuration of `min_grade`, `max_grade` and `check_max`. -/
theorem grade_empty_is_sentinel (col : GradeColumn) :
    col.grade [] = Except.ok GradeValue.sentinelDash := by
  simp [GradeColumn.grade]

/-- C5: on a non-empty string that parses as a decimal `q`, with bound
checking enabled (`check_max` true, both bounds configured), `grade` raises
the out-of-range error when `q` is strictly above the maximum or strictly
below the minimum, and returns `q` unchanged whenever
`min_grade ≤ q ≤ max_grade` — in particular at the two boundary values. -/
theorem grade_bound_checks (col : GradeColumn) (s : List Char) (q M m : ℚ)
    (hs : s ≠ []) (hparse : parseDecimal (commaFix s) = some q)
    (hcm : col.check_max = true) (hM : col.max_grade = some M)
    (hm : col.min_grade = some m) :
    (M < q → col.grade s = Except.error (GradeError.aboveMax q col.key M)) ∧
    (q ≤ M → q < m → col.grade s = Except.error (GradeError.belowMin q col.key m)) ∧
    (m ≤ q → q ≤ M → col.grade s = Except.ok (GradeValue.value q)) := by
  rw [GradeColumn.grade, if_neg hs, hparse]
  dsimp only
  rw [GradeColumn.checkBounds.eq_def, hM]
  dsimp only
  rw [GradeColumn.checkMin.eq_def, hm]
  dsimp only
  refine ⟨fun h1 => ?_, fun h1 h2 => ?_, fun h1 h2 => ?_⟩
  · rw [if_pos ⟨hcm, h1⟩]
  · rw [if_neg (fun hc => absurd hc.2 (not_lt.mpr h1)), if_pos h2]
  · rw [if_neg (fun hc => absurd hc.2 (not_lt.mpr h2)), if_neg (not_lt.mpr h1)]

/-- Witness for C5 on the column `g` with `min_grade = 2`, `max_grade = 10`,
`check_max` on: `10.5` is rejected as above the maximum, `1.5` as below the
minimum, and both boundary values `10` and `2` succeed unchanged. -/
theorem grade_bound_checks_witness :
    (GradeColumn.mk "g" (some 10) (some 2) true).grade "10.5".data =
      Except.error (GradeError.aboveMax (21/2) "g" 10) ∧
    (GradeColumn.mk "g" (some 10) (some 2) true).grade "1.5".data =
      Except.error (GradeError.belowMin (3/2) "g" 2) ∧
    (GradeColumn.mk "g" (some 10) (some 2) true).grade "10".data =
      Except.ok (GradeValue.value 10) ∧
    (GradeColumn.mk "g" (some 10) (some 2) true).grade "2".data =
      Except.ok (GradeValue.value 2) := by
  refine ⟨?_, ?_, ?_, ?_⟩
  · refine (grade_bound_checks _ "10.5".data (21/2) 10 2 (by decide) ?_ rfl rfl rfl).1
      (by norm_num)
    rw [show parseDecimal (commaFix "10.5".data) =
      some (((10:ℕ) : ℚ) + ((5:ℕ) : ℚ) / 10 ^ 1) from rfl]
    norm_num
  · refine (grade_bound_checks _ "1.5".data (3/2) 10 2 (by decide) ?_ rfl rfl rfl).2.1
      (by norm_num) (by norm_num)
    rw [show parseDecimal (commaFix "1.5".data) =
      some (((1:ℕ) : ℚ) + ((5:ℕ) : ℚ) / 10 ^ 1) from rfl]
    norm_num
  · refine (grade_bound_checks _ "10".data 10 10 2 (by decide) ?_ rfl rfl rfl).2.2
      (by norm_num) (by norm_num)
    rw [show parseDecimal (commaFix "10".data) = some ((10:ℕ) : ℚ) from rfl]
    norm_num
  · refine (grade_bound_checks _ "2".data 2 10 2 (by decide) ?_ rfl rfl rfl).2.2
      (by norm_num) (by norm_num)
    rw [show parseDecimal (commaFix "2".data) = some ((2:ℕ) : ℚ) from rfl]
    norm_num

/-- C6: the decimal separator is locale-tolerant: `grade` yields a given
decimal value on a string exactly when it yields the same value on the
string with every comma replaced by a period, for every column
configuration. -/
theorem grade_comma_period_same_value (col : GradeColumn) (s : List Char) (q : ℚ) :
    col.grade s = Except.ok (GradeValue.value q) ↔
      col.grade (s.map commaFixChar) = Except.ok (GradeValue.value q) := by
  by_cases hs : s = []
  · subst hs
    simp [GradeColumn.grade]
  · have hmnil : s.map commaFixChar ≠ [] := by
      simpa using hs
    rw [GradeColumn.grade, GradeColumn.grade, if_neg hs, if_neg hmnil,
      commaFix_eq_map, commaFix_map]
    cases hp : parseDecimal (s.map commaFixChar) with
    | none => simp
    | some r => exact Iff.rfl

/-- Witness for C6: `7,5` and `7.5` both bind to the decimal 15/2 on a
bound-free grade column. -/
theorem grade_comma_period_same_value_witness :
    (GradeColumn.mk "g" none none true).grade "7,5".data =
      Except.ok (GradeValue.value (15/2)) ∧
    (GradeColumn.mk "g" none none true).grade "7.5".data =
      Except.ok (GradeValue.value (15/2)) := by
  have h75 : (GradeColumn.mk "g" none none true).grade "7.5".data =
      Except.ok (GradeValue.value (15/2)) := by
    rw [show (GradeColumn.mk "g" none none true).grade "7.5".data =
      (GradeColumn.mk "g" none none true).checkBounds
        (((7:ℕ) : ℚ) + ((5:ℕ) : ℚ) / 10 ^ 1) from rfl]
    rw [GradeColumn.checkBounds, GradeColumn.checkMin]
    norm_num
  exact ⟨(grade_comma_period_same_value (GradeColumn.mk "g" none none true)
    "7,5".data (15/2)).mpr h75, h75⟩

/-- Witness for C2 at a concrete state: the empty log, address `x@y`,
send timestamp 5, forget timestamp 9. -/
theorem sentlog_add_forget_roundtrip_witness :
    loadFromFile ((SentLog.mk (fun _ => none) []).add
      (Address.mk (some "x@y") none) 5).file (some "x@y") = some 5 ∧
    loadFromFile (((SentLog.mk (fun _ => none) []).add
      (Address.mk (some "x@y") none) 5).forget
      (Address.mk (some "x@y") none) 9).file (some "x@y") = none ∧
    LogLine.mk "x@y" Action.send 5 ∈ (((SentLog.mk (fun _ => none) []).add
      (Address.mk (some "x@y") none) 5).forget
      (Address.mk (some "x@y") none) 9).file ∧
    (((SentLog.mk (fun _ => none) []).add
      (Address.mk (some "x@y") none) 5).forget
      (Address.mk (some "x@y") none) 9).file =
      [] ++ [LogLine.mk "x@y" Action.send 5, LogLine.mk "x@y" Action.forget 9] :=
  sentlog_add_forget_roundtrip (SentLog.mk (fun _ => none) [])
    (Address.mk (some "x@y") none) 5 9 "x@y" rfl

end Mailst

namespace Mailst

/-- `join` on a cons with a nonempty tail inserts one separator. -/
theorem joinWithChar_cons (sep : Char) (p : List Char) (ps : List (List Char))
    (h : ps ≠ []) :
    joinWithChar sep (p :: ps) = p ++ sep :: joinWithChar sep ps := by
  cases ps with
  | nil => exact absurd rfl h
  | cons q qs => rfl

/-- `split` never returns the empty chunk list. -/
theorem splitOnChar_ne_nil (sep : Char) (l : List Char) :
    splitOnChar sep l ≠ [] := by
  cases l with
  | nil => simp [splitOnChar]
  | cons c r =>
    unfold splitOnChar
    cases h : splitOnChar sep r with
    | nil => simp
    | cons t ts =>
      dsimp only
      split <;> simp

/-- No chunk produced by `split` contains the separator. -/
theorem splitOnChar_no_sep (sep : Char) (l : List Char) :
    ∀ p ∈ splitOnChar sep l, sep ∉ p := by
  induction l with
  | nil =>
    intro p hp
    simp [splitOnChar] at hp
    subst hp
    simp
  | cons c r ih =>
    intro p hp
    unfold splitOnChar at hp
    cases h : splitOnChar sep r with
    | nil => exact absurd h (splitOnChar_ne_nil sep r)
    | cons t ts =>
      rw [h] at hp
      dsimp only at hp
      by_cases hc : c = sep
      · rw [if_pos hc] at hp
        rcases List.mem_cons.mp hp with hp | hp
        · subst hp
          simp
        · exact ih p (h ▸ hp)
      · rw [if_neg hc] at hp
        rcases List.mem_cons.mp hp with hp | hp
        · subst hp
          intro hmem
          rcases List.mem_cons.mp hmem with he | he
          · exact hc he.symm
          · exact ih t (h ▸ List.mem_cons_self t ts) he
        · exact ih p (h ▸ List.mem_cons_of_mem t hp)

/-- Every character of a `split` chunk comes from the original string. -/
theorem splitOnChar_mem_subset (sep : Char) (l : List Char) :
    ∀ p ∈ splitOnChar sep l, ∀ c ∈ p, c ∈ l := by
  induction l with
  | nil =>
    intro p hp c hc
    simp [splitOnChar] at hp
    subst hp
    simp at hc
  | cons d r ih =>
    intro p hp c hc
    unfold splitOnChar at hp
    cases h : splitOnChar sep r with
    | nil => exact absurd h (splitOnChar_ne_nil sep r)
    | cons t ts =>
      rw [h] at hp
      dsimp only at hp
      by_cases hd : d = sep
      · rw [if_pos hd] at hp
        rcases List.mem_cons.mp hp with hp | hp
        · subst hp
          simp at hc
        · exact List.mem_cons_of_mem d (ih p (h ▸ hp) c hc)
      · rw [if_neg hd] at hp
        rcases List.mem_cons.mp hp with hp | hp
        · subst hp
          rcases List.mem_cons.mp hc with he | he
          · exact he ▸ List.mem_cons_self d r
          · exact List.mem_cons_of_mem d
              (ih t (h ▸ List.mem_cons_self t ts) c he)
        · exact List.mem_cons_of_mem d (ih p (h ▸ List.mem_cons_of_mem t hp) c hc)

/-- `join` is a left inverse of `split`. -/
theorem joinWithChar_splitOnChar (sep : Char) (l : List Char) :
    joinWithChar sep (splitOnChar sep l) = l := by
  induction l with
  | nil => rfl
  | cons c r ih =>
    unfold splitOnChar
    cases h : splitOnChar sep r with
    | nil => exact absurd h (splitOnChar_ne_nil sep r)
    | cons t ts =>
      rw [h] at ih
      dsimp only
      by_cases hc : c = sep
      · rw [if_pos hc, joinWithChar_cons sep [] (t :: ts) (by simp)]
        simp [hc, ih]
      · rw [if_neg hc]
        cases ts with
        | nil =>
          show c :: t = c :: r
          rw [show joinWithChar sep [t] = t from rfl] at ih
          rw [ih]
        | cons u us =>
          rw [joinWithChar_cons _ _ _ (by simp)]
          rw [joinWithChar_cons _ _ _ (by simp)] at ih
          simpa using ih

/-- Splitting a separator-free string gives back one chunk. -/
theorem splitOnChar_of_no_sep (sep : Char) (p : List Char) (h : sep ∉ p) :
    splitOnChar sep p = [p] := by
  induction p with
  | nil => rfl
  | cons c r ih =>
    simp only [List.mem_cons] at h
    push_neg at h
    unfold splitOnChar
    rw [ih h.2]
    dsimp only
    rw [if_neg (Ne.symm h.1)]

/-- Splitting a string of the form `p ++ sep :: rest` with `p`
separator-free peels off `p` as the first chunk. -/
theorem splitOnChar_append_sep (sep : Char) (p rest : List Char) (h : sep ∉ p) :
    splitOnChar sep (p ++ sep :: rest) = p :: splitOnChar sep rest := by
  induction p with
  | nil =>
    simp only [List.nil_append]
    cases h' : splitOnChar sep rest with
    | nil => exact absurd h' (splitOnChar_ne_nil sep rest)
    | cons t ts =>
      rw [splitOnChar.eq_def]
      dsimp only
      rw [h']
      dsimp only
      rw [if_pos rfl]
  | cons c r ih =>
    simp only [List.mem_cons] at h
    push_neg at h
    simp only [List.cons_append]
    rw [splitOnChar.eq_def]
    dsimp only
    rw [ih h.2]
    dsimp only
    rw [if_neg (Ne.symm h.1)]

/-- `split` is a left inverse of `join` on nonempty separator-free chunk
lists. -/
theorem splitOnChar_joinWithChar (sep : Char) (parts : List (List Char))
    (hne : parts ≠ []) (hfree : ∀ p ∈ parts, sep ∉ p) :
    splitOnChar sep (joinWithChar sep parts) = parts := by
  induction parts with
  | nil => exact absurd rfl hne
  | cons p ps ih =>
    cases ps with
    | nil => exact splitOnChar_of_no_sep sep p (hfree p (List.mem_cons_self p []))
    | cons q qs =>
      rw [joinWithChar_cons _ _ _ (by simp)]
      rw [splitOnChar_append_sep sep p _ (hfree p (List.mem_cons_self p _))]
      rw [ih (by simp) (fun x hx => hfree x (List.mem_cons_of_mem p hx))]

/-- A character map that fixes the separator distributes over `join`. -/
theorem map_joinWithChar (f : Char → Char) (sep : Char) (hf : f sep = sep)
    (parts : List (List Char)) :
    (joinWithChar sep parts).map f = joinWithChar sep (parts.map (List.map f)) := by
  induction parts with
  | nil => rfl
  | cons p ps ih =>
    cases ps with
    | nil => rfl
    | cons q qs =>
      rw [joinWithChar_cons sep p (q :: qs) (by simp)]
      rw [List.map_append, List.map_cons]
      rw [hf, ih]
      rw [show List.map (List.map f) (p :: q :: qs) =
        List.map f p :: List.map (List.map f) (q :: qs) from rfl]
      rw [joinWithChar_cons sep (List.map f p)
        (List.map (List.map f) (q :: qs)) (by simp)]

/-- Appending one chunk to a nonempty chunk list appends one separator and
the chunk to the `join`. -/
theorem joinWithChar_append_single (sep : Char) (xs : List (List Char))
    (y : List Char) (h : xs ≠ []) :
    joinWithChar sep (xs ++ [y]) = joinWithChar sep xs ++ sep :: y := by
  induction xs with
  | nil => exact absurd rfl h
  | cons p ps ih =>
    cases ps with
    | nil => rfl
    | cons q qs =>
      rw [List.cons_append, joinWithChar_cons sep p ((q :: qs) ++ [y]) (by simp)]
      rw [ih (by simp)]
      rw [joinWithChar_cons sep p (q :: qs) (by simp)]
      simp

/-- Reversing a `join` joins the reversed chunks in reverse order. -/
theorem joinWithChar_reverse (sep : Char) (parts : List (List Char)) :
    (joinWithChar sep parts).reverse =
      joinWithChar sep ((parts.reverse).map List.reverse) := by
  induction parts with
  | nil => rfl
  | cons p ps ih =>
    cases ps with
    | nil => simp [joinWithChar]
    | cons q qs =>
      rw [joinWithChar_cons _ _ _ (by simp), List.reverse_append]
      rw [show ((p :: q :: qs).reverse.map List.reverse) =
        ((q :: qs).reverse.map List.reverse) ++ [p.reverse] by simp]
      rw [joinWithChar_append_single _ _ _ (by simp)]
      rw [← ih]
      simp

/-- Every character of a `join` is a separator or comes from a chunk. -/
theorem joinWithChar_mem (sep : Char) (parts : List (List Char)) :
    ∀ c ∈ joinWithChar sep parts, c = sep ∨ ∃ p ∈ parts, c ∈ p := by
  induction parts with
  | nil =>
    intro c hc
    simp [joinWithChar] at hc
  | cons p ps ih =>
    intro c hc
    cases ps with
    | nil =>
      right
      exact ⟨p, List.mem_cons_self p [], hc⟩
    | cons q qs =>
      rw [joinWithChar_cons _ _ _ (by simp)] at hc
      rcases List.mem_append.mp hc with hc | hc
      · exact Or.inr ⟨p, List.mem_cons_self p _, hc⟩
      · rcases List.mem_cons.mp hc with hc | hc
        · exact Or.inl hc
        · rcases ih c hc with h | ⟨x, hx, hcx⟩
          · exact Or.inl h
          · exact Or.inr ⟨x, List.mem_cons_of_mem p hx, hcx⟩

end Mailst

namespace Mailst

/-- Lower-casing a list twice equals lower-casing once. -/
theorem map_low_idem (l : List Char) :
    (l.map pyLowerChar).map pyLowerChar = l.map pyLowerChar := by
  rw [List.map_map]
  apply List.map_congr_left
  intro c _
  exact low_low c

/-- Swap-casing before capitalizing is redundant: `capitalize` overwrites
the case of every character anyway. -/
theorem pyCapitalize_map_swap (l : List Char) :
    pyCapitalize (l.map pySwapChar) = pyCapitalize l := by
  cases l with
  | nil => rfl
  | cons c r =>
    simp only [List.map_cons, pyCapitalize, up_swap]
    rw [List.map_map]
    congr 1
    apply List.map_congr_left
    intro d _
    exact low_swap d

/-- Capitalizing the lower-casing of a capitalized string gives the
capitalized string back. -/
theorem pyCapitalize_low_pyCapitalize (p : List Char) :
    pyCapitalize ((pyCapitalize p).map pyLowerChar) = pyCapitalize p := by
  cases p with
  | nil => rfl
  | cons c r =>
    simp only [pyCapitalize, List.map_cons]
    rw [up_low, up_up]
    congr 1
    rw [List.map_map, List.map_map]
    apply List.map_congr_left
    intro d _
    simp only [Function.comp]
    rw [low_low, low_low]

/-- `capitalize` distributes over a hyphen `join`: the first chunk is
capitalized and the remaining chunks are fully lower-cased. -/
theorem pyCapitalize_joinWithChar (q : List Char) (qs : List (List Char)) :
    pyCapitalize (joinWithChar '-' (q :: qs)) =
      joinWithChar '-' (pyCapitalize q :: qs.map (List.map pyLowerChar)) := by
  have hlow : pyLowerChar '-' = '-' := (pyLowerChar_eq_hyphen '-').mpr rfl
  cases qs with
  | nil => rfl
  | cons w ws =>
    rw [joinWithChar_cons '-' q (w :: ws) (by simp)]
    rw [joinWithChar_cons '-' (pyCapitalize q)
      ((w :: ws).map (List.map pyLowerChar)) (by simp)]
    cases q with
    | nil =>
      simp only [List.nil_append, pyCapitalize]
      rw [show pyUpperChar '-' = '-' from (pyUpperChar_eq_hyphen '-').mpr rfl]
      rw [map_joinWithChar pyLowerChar '-' hlow]
    | cons c r =>
      simp only [List.cons_append, pyCapitalize]
      rw [List.map_append, List.map_cons, hlow]
      rw [map_joinWithChar pyLowerChar '-' hlow]

/-- The head chunk of the hyphen split of a capitalized string is already
capitalized. -/
theorem pyCapitalize_head_chunk (t p0 : List Char) (ptail : List (List Char))
    (h : splitOnChar '-' (pyCapitalize t) = p0 :: ptail) :
    pyCapitalize p0 = p0 := by
  have hjoin := joinWithChar_splitOnChar '-' (pyCapitalize t)
  rw [h] at hjoin
  have hpre : ∃ rest, pyCapitalize t = p0 ++ rest := by
    cases ptail with
    | nil => exact ⟨[], by rw [← hjoin]; simp [joinWithChar]⟩
    | cons u us =>
      refine ⟨'-' :: joinWithChar '-' (u :: us), ?_⟩
      rw [← hjoin, joinWithChar_cons '-' p0 (u :: us) (by simp)]
  obtain ⟨rest, hr⟩ := hpre
  cases t with
  | nil =>
    have hnil : p0 = [] := by
      have h0 := hr.symm
      simp only [pyCapitalize] at h0
      exact (List.append_eq_nil.mp h0).1
    rw [hnil]
    rfl
  | cons c r =>
    cases p0 with
    | nil => rfl
    | cons d dr =>
      simp only [pyCapitalize, List.cons_append] at hr
      injection hr with h1 h2
      obtain ⟨r1, r2, hsplit, hm1, hm2⟩ := List.map_eq_append_iff.mp h2
      simp only [pyCapitalize]
      rw [← h1, ← hm1, up_up]
      congr 1
      exact map_low_idem r1

/-- Lower-casing never produces a hyphen from another character. -/
theorem no_hyphen_map_low (p : List Char) (h : '-' ∉ p) :
    '-' ∉ p.map pyLowerChar := by
  intro hmem
  obtain ⟨c, hc, he⟩ := List.mem_map.mp hmem
  exact h (((pyLowerChar_eq_hyphen c).mp he) ▸ hc)

/-- Capitalizing never produces a hyphen from another character. -/
theorem no_hyphen_pyCapitalize (p : List Char) (h : '-' ∉ p) :
    '-' ∉ pyCapitalize p := by
  cases p with
  | nil => simp [pyCapitalize]
  | cons c r =>
    simp only [List.mem_cons] at h
    push_neg at h
    simp only [pyCapitalize, List.mem_cons]
    push_neg
    constructor
    · intro he
      exact h.1 ((pyUpperChar_eq_hyphen c).mp he.symm).symm
    · exact no_hyphen_map_low r h.2

/-- The per-token transform of `_uncapitalize` (swap-case, capitalize, then
the hyphen pass) is idempotent. -/
theorem tokenFix_idem (t : List Char) :
    hyphenFix (pyCapitalize ((hyphenFix (pyCapitalize (t.map pySwapChar))).map pySwapChar)) =
      hyphenFix (pyCapitalize (t.map pySwapChar)) := by
  rw [pyCapitalize_map_swap, pyCapitalize_map_swap]
  obtain ⟨p0, ptail, hsplit⟩ : ∃ p0 ptail,
      splitOnChar '-' (pyCapitalize t) = p0 :: ptail := by
    cases h : splitOnChar '-' (pyCapitalize t) with
    | nil => exact absurd h (splitOnChar_ne_nil _ _)
    | cons a b => exact ⟨a, b, rfl⟩
  have hp0 : pyCapitalize p0 = p0 := pyCapitalize_head_chunk t p0 ptail hsplit
  have hfree0 : ∀ p ∈ p0 :: ptail, '-' ∉ p := by
    intro p hp
    exact splitOnChar_no_sep '-' (pyCapitalize t) p (hsplit ▸ hp)
  have h1 : hyphenFix (pyCapitalize t) =
      joinWithChar '-' (p0 :: ptail.map pyCapitalize) := by
    rw [hyphenFix, hsplit]
    rfl
  rw [h1]
  rw [pyCapitalize_joinWithChar p0 (ptail.map pyCapitalize)]
  rw [hp0]
  rw [hyphenFix]
  rw [splitOnChar_joinWithChar '-' _ (by simp) ?hfree]
  case hfree =>
    intro p hp
    rcases List.mem_cons.mp hp with hp | hp
    · exact hp ▸ hfree0 p0 (List.mem_cons_self _ _)
    · obtain ⟨q, hq, hpq⟩ := List.mem_map.mp hp
      obtain ⟨x, hx, hqx⟩ := List.mem_map.mp hq
      subst hpq
      subst hqx
      exact no_hyphen_map_low _ (no_hyphen_pyCapitalize _
        (hfree0 x (List.mem_cons_of_mem p0 hx)))
  show joinWithChar '-'
    (p0 :: (((ptail.map pyCapitalize).map (List.map pyLowerChar)).map pyCapitalize)) =
    joinWithChar '-' (p0 :: ptail.map pyCapitalize)
  congr 1
  congr 1
  rw [List.map_map, List.map_map]
  apply List.map_congr_left
  intro q _
  simp only [Function.comp]
  exact pyCapitalize_low_pyCapitalize q

end Mailst

namespace Mailst

/-- Upper-casing does not move characters into or out of the whitespace
set. -/
theorem wsCode_upCode (n : Nat) : wsCode (upCode n) = wsCode n := by
  simp only [wsCode, decide_eq_decide]
  unfold upCode
  split_ifs <;> omega

/-- Lower-casing does not move characters into or out of the whitespace
set. -/
theorem wsCode_downCode (n : Nat) : wsCode (downCode n) = wsCode n := by
  simp only [wsCode, decide_eq_decide]
  unfold downCode
  split_ifs <;> omega

/-- Swap-casing does not move characters into or out of the whitespace
set. -/
theorem wsCode_swapCode (n : Nat) : wsCode (swapCode n) = wsCode n := by
  simp only [wsCode, decide_eq_decide]
  unfold swapCode isUpperCode isLowerCode upCode downCode
  split_ifs <;> omega

/-- Character-level whitespace invariance of the case maps. -/
theorem pyIsSpace_up (c : Char) : pyIsSpace (pyUpperChar c) = pyIsSpace c := by
  unfold pyIsSpace
  rw [pyUpperChar_toNat]
  exact wsCode_upCode _

/-- Character-level whitespace invariance of lower-casing. -/
theorem pyIsSpace_low (c : Char) : pyIsSpace (pyLowerChar c) = pyIsSpace c := by
  unfold pyIsSpace
  rw [pyLowerChar_toNat]
  exact wsCode_downCode _

/-- Character-level whitespace invariance of swap-casing. -/
theorem pyIsSpace_swap (c : Char) : pyIsSpace (pySwapChar c) = pyIsSpace c := by
  unfold pyIsSpace
  rw [pySwapChar_toNat]
  exact wsCode_swapCode _

/-- Swap-casing a whitespace-free string stays whitespace-free. -/
theorem no_space_map_swap (p : List Char)
    (h : ∀ c ∈ p, pyIsSpace c = false) :
    ∀ c ∈ p.map pySwapChar, pyIsSpace c = false := by
  intro c hc
  obtain ⟨d, hd, he⟩ := List.mem_map.mp hc
  rw [← he, pyIsSpace_swap]
  exact h d hd

/-- Capitalizing a whitespace-free string stays whitespace-free. -/
theorem no_space_pyCapitalize (p : List Char)
    (h : ∀ c ∈ p, pyIsSpace c = false) :
    ∀ c ∈ pyCapitalize p, pyIsSpace c = false := by
  cases p with
  | nil =>
    intro c hc
    simp [pyCapitalize] at hc
  | cons d r =>
    intro c hc
    rcases List.mem_cons.mp hc with hc | hc
    · rw [hc, pyIsSpace_up]
      exact h d (List.mem_cons_self d r)
    · obtain ⟨x, hx, he⟩ := List.mem_map.mp hc
      rw [← he, pyIsSpace_low]
      exact h x (List.mem_cons_of_mem d hx)

/-- The hyphen pass keeps a whitespace-free token whitespace-free. -/
theorem no_space_hyphenFix (t : List Char)
    (h : ∀ c ∈ t, pyIsSpace c = false) :
    ∀ c ∈ hyphenFix t, pyIsSpace c = false := by
  intro c hc
  unfold hyphenFix at hc
  rcases joinWithChar_mem '-' _ c hc with he | ⟨p, hp, hcp⟩
  · rw [he]
    decide
  · cases hs : splitOnChar '-' t with
    | nil => exact absurd hs (splitOnChar_ne_nil _ _)
    | cons p0 ptail =>
      rw [hs] at hp
      simp only [capParts] at hp
      rcases List.mem_cons.mp hp with hp | hp
      · exact h c (splitOnChar_mem_subset '-' t p0
          (hs ▸ List.mem_cons_self p0 ptail) c (hp ▸ hcp))
      · obtain ⟨x, hx, he⟩ := List.mem_map.mp hp
        subst he
        exact no_space_pyCapitalize x
          (fun d hd => h d (splitOnChar_mem_subset '-' t x
            (hs ▸ List.mem_cons_of_mem p0 hx) d hd)) c hcp

/-- A string that is a fixed point of the leading-whitespace drop has a
non-whitespace head. -/
theorem head_not_space_of_dw_fix (x : List Char) (c : Char) (rest : List Char)
    (hx : x.dropWhile pyIsSpace = x) (he : x = c :: rest) :
    pyIsSpace c = false := by
  subst he
  rw [List.dropWhile_cons] at hx
  by_cases hc : pyIsSpace c = true
  · rw [if_pos hc] at hx
    have hlen := congrArg List.length hx
    have hle := (List.dropWhile_sublist (l := rest) (p := pyIsSpace)).length_le
    simp at hlen
    omega
  · simpa using hc

/-- Python `strip` is idempotent. -/
theorem pyStrip_idem (l : List Char) : pyStrip (pyStrip l) = pyStrip l := by
  unfold pyStrip
  have hdw : (l.dropWhile pyIsSpace).dropWhile pyIsSpace = l.dropWhile pyIsSpace :=
    List.dropWhile_idempotent pyIsSpace l
  have h1 : (List.rdropWhile pyIsSpace (l.dropWhile pyIsSpace)).dropWhile pyIsSpace
      = List.rdropWhile pyIsSpace (l.dropWhile pyIsSpace) := by
    cases hb : List.rdropWhile pyIsSpace (l.dropWhile pyIsSpace) with
    | nil => rfl
    | cons c bs =>
      obtain ⟨tl, htl⟩ := List.rdropWhile_prefix pyIsSpace (l.dropWhile pyIsSpace)
      rw [hb] at htl
      have hc : pyIsSpace c = false :=
        head_not_space_of_dw_fix _ c (bs ++ tl) hdw htl.symm
      rw [List.dropWhile_cons, hc]
      simp
  rw [h1, List.rdropWhile_idempotent]

end Mailst


namespace Mailst

/-- Dropping the leading whitespace of a space-`join` of whitespace-free
chunks drops exactly the leading empty chunks. -/
theorem dropWhile_space_join (parts : List (List Char))
    (hfree : ∀ p ∈ parts, ∀ c ∈ p, pyIsSpace c = false) :
    (joinWithChar ' ' parts).dropWhile pyIsSpace =
      joinWithChar ' ' (parts.dropWhile List.isEmpty) := by
  induction parts with
  | nil => rfl
  | cons p ps ih =>
    have hfree' : ∀ q ∈ ps, ∀ c ∈ q, pyIsSpace c = false :=
      fun q hq => hfree q (List.mem_cons_of_mem p hq)
    cases p with
    | nil =>
      cases ps with
      | nil => rfl
      | cons q qs =>
        rw [joinWithChar_cons ' ' [] (q :: qs) (by simp)]
        simp only [List.nil_append, List.dropWhile_cons]
        rw [if_pos (show pyIsSpace ' ' = true by decide)]
        rw [ih hfree']
        rw [show ([] : List Char) :: q :: qs = [] :: (q :: qs) from rfl]
        rw [List.dropWhile_cons]
        rw [if_pos (show List.isEmpty ([] : List Char) = true by decide)]
    | cons c r =>
      have hc : pyIsSpace c = false :=
        hfree (c :: r) (List.mem_cons_self _ _) c (List.mem_cons_self c r)
      have hne : List.isEmpty (c :: r) = false := by simp
      cases ps with
      | nil =>
        show (c :: r).dropWhile pyIsSpace = _
        rw [List.dropWhile_cons, hc]
        simp only [Bool.false_eq_true, if_false]
        rw [List.dropWhile_cons, hne]
        rfl
      | cons q qs =>
        rw [joinWithChar_cons ' ' (c :: r) (q :: qs) (by simp)]
        rw [show (c :: r) ++ ' ' :: joinWithChar ' ' (q :: qs) =
          c :: (r ++ ' ' :: joinWithChar ' ' (q :: qs)) from rfl]
        rw [List.dropWhile_cons, hc]
        simp only [Bool.false_eq_true, if_false]
        rw [List.dropWhile_cons, hne]
        simp only [Bool.false_eq_true, if_false]
        rw [joinWithChar_cons ' ' (c :: r) (q :: qs) (by simp)]
        rfl

/-- Dropping empty chunks commutes with chunk reversal. -/
theorem dropWhile_isEmpty_map_reverse (m : List (List Char)) :
    (m.map List.reverse).dropWhile List.isEmpty =
      (m.dropWhile List.isEmpty).map List.reverse := by
  rw [List.dropWhile_map]
  have hfun : (List.isEmpty ∘ List.reverse : List Char → Bool) = List.isEmpty := by
    funext p
    cases p <;> simp
  rw [hfun]

/-- `strip` of a space-`join` of whitespace-free chunks is the `join` of the
chunk list with the empty chunks at both ends removed. -/
theorem pyStrip_join (parts : List (List Char))
    (hfree : ∀ p ∈ parts, ∀ c ∈ p, pyIsSpace c = false) :
    pyStrip (joinWithChar ' ' parts) = joinWithChar ' ' (trimParts parts) := by
  unfold pyStrip trimParts List.rdropWhile
  rw [dropWhile_space_join parts hfree]
  rw [joinWithChar_reverse]
  rw [dropWhile_space_join _ ?hfree2]
  case hfree2 =>
    intro p hp c hc
    obtain ⟨x, hx, he⟩ := List.mem_map.mp hp
    have hx2 : x ∈ parts :=
      (List.dropWhile_sublist (l := parts) (p := List.isEmpty)).mem
        (List.mem_reverse.mp hx)
    rw [← he] at hc
    exact hfree x hx2 c (List.mem_reverse.mp hc)
  rw [dropWhile_isEmpty_map_reverse]
  rw [joinWithChar_reverse]
  congr 1
  rw [List.map_reverse, List.map_map]
  simp [Function.comp]

end Mailst

namespace Mailst

/-- `_uncapitalize` is idempotent on strings whose only whitespace is the
plain space character. -/
theorem uncapitalize_only_space_idem (s : List Char)
    (hws : ∀ c ∈ s, pyIsSpace c = true → c = ' ') :
    uncapitalize (uncapitalize s) = uncapitalize s := by
  have hfree : ∀ p ∈ ((splitOnChar ' ' s).map
      (fun n => pyCapitalize (n.map pySwapChar))).map hyphenFix,
      ∀ c ∈ p, pyIsSpace c = false := by
    intro p hp c hc
    obtain ⟨y, hy, hey⟩ := List.mem_map.mp hp
    obtain ⟨x, hx, hex⟩ := List.mem_map.mp hy
    subst hey
    subst hex
    refine no_space_hyphenFix _ ?_ c hc
    refine no_space_pyCapitalize _ ?_
    refine no_space_map_swap _ ?_
    intro d hd
    have hdm : d ∈ s := splitOnChar_mem_subset ' ' s x hx d hd
    have hdne : d ≠ ' ' := fun he => splitOnChar_no_sep ' ' s x hx (he ▸ hd)
    by_cases hsp : pyIsSpace d = true
    · exact absurd (hws d hdm hsp) hdne
    · simpa using hsp
  have h1 : uncapitalize s =
      joinWithChar ' ' (trimParts (((splitOnChar ' ' s).map
        (fun n => pyCapitalize (n.map pySwapChar))).map hyphenFix)) := by
    rw [uncapitalize]
    exact pyStrip_join _ hfree
  cases htr : trimParts (((splitOnChar ' ' s).map
      (fun n => pyCapitalize (n.map pySwapChar))).map hyphenFix) with
  | nil =>
    rw [h1, htr]
    rfl
  | cons q qs =>
    have hmem : ∀ p ∈ q :: qs, p ∈ ((splitOnChar ' ' s).map
        (fun n => pyCapitalize (n.map pySwapChar))).map hyphenFix := by
      intro p hp
      have hp1 : p ∈ trimParts (((splitOnChar ' ' s).map
          (fun n => pyCapitalize (n.map pySwapChar))).map hyphenFix) := htr ▸ hp
      unfold trimParts at hp1
      have hp2 := ( List.rdropWhile_prefix List.isEmpty _).sublist.mem hp1
      exact (List.dropWhile_sublist List.isEmpty).mem hp2
    have hsfree : ∀ p ∈ q :: qs, (' ' : Char) ∉ p := by
      intro p hp hmem'
      have hcontr := hfree p (hmem p hp) ' ' hmem'
      exact absurd hcontr (by decide)
    have hfix : ∀ p ∈ q :: qs,
        hyphenFix (pyCapitalize (p.map pySwapChar)) = p := by
      intro p hp
      obtain ⟨y, hy, hey⟩ := List.mem_map.mp (hmem p hp)
      obtain ⟨x, hx, hex⟩ := List.mem_map.mp hy
      subst hey
      subst hex
      exact tokenFix_idem x
    rw [h1, htr]
    rw [uncapitalize]
    rw [splitOnChar_joinWithChar ' ' (q :: qs) (by simp) hsfree]
    have hmap : ((q :: qs).map
        (fun n => pyCapitalize (n.map pySwapChar))).map hyphenFix = q :: qs := by
      rw [List.map_map]
      have h2 : (q :: qs).map (hyphenFix ∘ fun n => pyCapitalize (n.map pySwapChar)) =
          (q :: qs).map id :=
        List.map_congr_left (fun p hp => hfix p hp)
      rw [h2, List.map_id]
    rw [hmap]
    rw [← htr]
    rw [← pyStrip_join _ hfree]
    exact pyStrip_idem _

end Mailst

namespace Mailst

/-- Counterexample to C8 as stated: `_uncapitalize` is not idempotent on
every string. On the two-character string tab-`a`, the first pass leaves the
tab (it is not a space-split separator and `capitalize` ignores it) so the
final `strip` removes it and exposes a lower-case first character; the
second pass then upper-cases that character: the results differ. -/
theorem uncapitalize_not_idempotent :
    ¬ (uncapitalize (uncapitalize ['\t', 'a']) = uncapitalize ['\t', 'a']) := by
  decide

/-- C8 (amended): `_uncapitalize` is idempotent on every name string whose
whitespace characters are all plain spaces (the counterexample forces the
exclusion of other whitespace, which `strip` removes only at the very end),
and `uncapitalize "JOSÉ GARCIA-LOPEZ" = "José Garcia-Lopez"` exactly as
claimed. -/
theorem uncapitalize_idem_and_example :
    (∀ s : List Char, (∀ c ∈ s, pyIsSpace c = true → c = ' ') →
      uncapitalize (uncapitalize s) = uncapitalize s) ∧
    uncapitalize "JOSÉ GARCIA-LOPEZ".data = "José Garcia-Lopez".data := by
  constructor
  · exact uncapitalize_only_space_idem
  · decide

/-- Witness for C8 at the concrete name from the spec. -/
theorem uncapitalize_idem_and_example_witness :
    uncapitalize (uncapitalize "JOSÉ GARCIA-LOPEZ".data) =
      uncapitalize "JOSÉ GARCIA-LOPEZ".data :=
  uncapitalize_idem_and_example.1 "JOSÉ GARCIA-LOPEZ".data (by decide)

end Mailst

namespace Mailst

/-- A simulated `sendLoop` run never touches the log. -/
theorem sendLoop_log_simulate (recips : List Recipient) (log : SentLog)
    (alt : Option Address) (cap : Nat) (delay : Option Nat)
    (times : Nat → Nat) (n k : Nat) :
    (sendLoop log recips true alt cap delay times n k).log = log := by
  induction recips generalizing log n k with
  | nil => rfl
  | cons r rest ih =>
    simp only [sendLoop]
    have hcond : ¬(true = false ∧ alt = none) := by simp
    rw [if_neg hcond]
    split
    · rfl
    · exact ih log (n + 1) _

/-- A `sendLoop` run redirected to an override address never touches the
log. -/
theorem sendLoop_log_override (recips : List Recipient) (log : SentLog)
    (simulate : Bool) (a : Address) (cap : Nat) (delay : Option Nat)
    (times : Nat → Nat) (n k : Nat) :
    (sendLoop log recips simulate (some a) cap delay times n k).log = log := by
  induction recips generalizing log n k with
  | nil => rfl
  | cons r rest ih =>
    simp only [sendLoop]
    have hcond : ¬(simulate = false ∧ (some a : Option Address) = none) := by simp
    rw [if_neg hcond]
    split
    · rfl
    · exact ih log (n + 1) _

/-- A real, non-redirected `sendLoop` run adds exactly the processed
recipients to the log: all of them when the cap is 0, else the first
`cap - n` of them. -/
theorem sendLoop_log_real (recips : List Recipient) (log : SentLog)
    (cap : Nat) (delay : Option Nat) (times : Nat → Nat) (n k : Nat)
    (hcap : cap = 0 ∨ n < cap) :
    (sendLoop log recips false none cap delay times n k).log =
      addAll log (if cap = 0 then recips else recips.take (cap - n)) times n := by
  induction recips generalizing log n k with
  | nil =>
    cases hcap with
    | inl h => simp [sendLoop, h, addAll]
    | inr h => simp [sendLoop, addAll]
  | cons r rest ih =>
    simp only [sendLoop]
    rw [if_pos (show True ∧ True from ⟨trivial, trivial⟩)]
    by_cases hbreak : cap ≠ 0 ∧ cap ≤ n + 1
    · rw [if_pos hbreak]
      have hc : cap = n + 1 := by omega
      have htake : (r :: rest).take (cap - n) = [r] := by
        rw [hc]
        simp
      rw [if_neg (by omega), htake]
      rfl
    · rw [if_neg hbreak]
      rw [ih _ (n + 1) _ (by omega)]
      cases hz : cap with
      | zero => rfl
      | succ c =>
        rw [if_neg (by omega), if_neg (by omega)]
        have hn : Nat.succ c - n = (Nat.succ c - (n + 1)) + 1 := by omega
        rw [hn]
        rfl

/-- `testLoop` threads the log through unchanged. -/
theorem testLoop_log (recips : List Recipient) (log : SentLog)
    (cap n : Nat) : (testLoop log recips cap n).1 = log := by
  induction recips generalizing n with
  | nil => rfl
  | cons r rest ih =>
    simp only [testLoop]
    split
    · rfl
    · exact ih (n + 1)

/-- Count of the sleeps a `sendLoop` run performs when a delay is
configured: one after every processed message except the one that reaches
the cap. -/
theorem sendLoop_delays (recips : List Recipient) (log : SentLog)
    (simulate : Bool) (alt : Option Address) (cap : Nat) (d : Nat)
    (times : Nat → Nat) (n k : Nat) (hcap : cap = 0 ∨ n < cap) :
    (sendLoop log recips simulate alt cap (some d) times n k).delays =
      k + (if cap ≠ 0 ∧ cap ≤ n + recips.length then cap - n - 1
        else recips.length) := by
  induction recips generalizing log n k with
  | nil =>
    simp only [sendLoop, List.length_nil]
    rw [if_neg (by omega)]
    omega
  | cons r rest ih =>
    simp only [sendLoop, List.length_cons]
    by_cases hbreak : cap ≠ 0 ∧ cap ≤ n + 1
    · rw [if_pos hbreak]
      rw [if_pos (show cap ≠ 0 ∧ cap ≤ n + (rest.length + 1) by omega)]
      simp only []
      omega
    · rw [if_neg hbreak]
      rw [show (Option.isSome (some d)) = true from rfl]
      simp only [if_true]
      rw [ih _ (n + 1) _ (by omega)]
      by_cases hfits : cap ≠ 0 ∧ cap ≤ n + (rest.length + 1)
      · rw [if_pos (show cap ≠ 0 ∧ cap ≤ n + 1 + rest.length by omega),
          if_pos hfits]
        omega
      · rw [if_neg (show ¬(cap ≠ 0 ∧ cap ≤ n + 1 + rest.length) by omega),
          if_neg hfits]
        omega

end Mailst

namespace Mailst

/-- C1: `_filter_recipients` keeps exactly the recipients satisfying the
four conditions — not excluded, not in the sent log, allowed by a
configured `send_only_to` whitelist (or the whitelist is empty), and not on
the `exclude` list — and returns them in input order (the result is a
sublist of the input). -/
theorem filter_recipients_spec (m : Mailer) (log : SentLog) :
    (∀ r, r ∈ m.filter_recipients log ↔
      (r ∈ m.recipients ∧ r.exclude = false ∧
        log.containsAddr r.address = false ∧
        (m.send_only_to = [] ∨ optEmailMem r.address.email m.send_only_to = true) ∧
        optEmailMem r.address.email m.exclude = false)) ∧
    (m.filter_recipients log).Sublist m.recipients := by
  constructor
  · intro r
    unfold Mailer.filter_recipients
    rw [List.mem_filter]
    simp only [Bool.and_eq_true, Bool.not_eq_true', Bool.or_eq_true,
      List.isEmpty_iff, and_assoc]
  · exact List.filter_sublist _

/-- Witness for C1: with a sent log holding `b@x`, a whitelist `[a@x, b@x]`
and an exclude list `[c@x]`, exactly the `a@x` recipient survives among
four candidates (one excluded by its hook, one already sent to, one not
whitelisted and also excluded). -/
theorem filter_recipients_spec_witness :
    Recipient.mk (Address.mk (some "a@x") none) [] [] false ∈
      (Mailer.mk "s"
        [Recipient.mk (Address.mk (some "a@x") none) [] [] false,
         Recipient.mk (Address.mk (some "d@x") none) [] [] true,
         Recipient.mk (Address.mk (some "b@x") none) [] [] false,
         Recipient.mk (Address.mk (some "c@x") none) [] [] false]
        (Address.mk (some "me@x") none) [] true ["a@x", "b@x"]
        ["c@x"]).filter_recipients
      (SentLog.mk (fun e => if e = some "b@x" then some 3 else none) []) := by
  refine ((filter_recipients_spec _ _).1 _).mpr ?_
  refine ⟨by simp, rfl, ?_, ?_, rfl⟩
  · simp [SentLog.containsAddr]
  · right
    rfl

/-- C3: the sent log advances exactly on real deliveries to real
recipients: a simulated `send` leaves the log unchanged, a `send`
redirected to an override address leaves the log unchanged, a real
non-redirected `send` appends one `send` event per processed recipient
(all filtered recipients, or the first `max_num_emails` of them when the
cap is set), and `test` never modifies the log. -/
theorem send_sentlog_exactly_on_real_delivery (m : Mailer) (log : SentLog)
    (simulate : Bool) (alt : Option Address) (cap : Nat) (delay : Option Nat)
    (times : Nat → Nat) :
    (simulate = true → (m.send log simulate alt cap delay times).log = log) ∧
    (∀ a, alt = some a → (m.send log simulate alt cap delay times).log = log) ∧
    (simulate = false → alt = none →
      (m.send log simulate alt cap delay times).log =
        addAll log (if cap = 0 then m.filter_recipients log
          else (m.filter_recipients log).take cap) times 0) ∧
    (m.test log cap).1 = log := by
  refine ⟨?_, ?_, ?_, ?_⟩
  · intro hs
    subst hs
    exact sendLoop_log_simulate _ _ _ _ _ _ _ _
  · intro a ha
    subst ha
    exact sendLoop_log_override _ _ _ _ _ _ _ _ _
  · intro hs ha
    subst hs
    subst ha
    unfold Mailer.send
    rw [sendLoop_log_real _ _ _ _ _ _ _ (by omega), Nat.sub_zero]
  · exact testLoop_log _ _ _ _

/-- Witness for C3 at a concrete two-recipient mailer: the simulated run
and the override run leave the empty log unchanged; the real run appends
both recipients; `test` leaves the log unchanged. -/
theorem send_sentlog_exactly_on_real_delivery_witness :
    ((Mailer.mk "s"
      [Recipient.mk (Address.mk (some "a@x") none) [] [] false,
       Recipient.mk (Address.mk (some "b@x") none) [] [] false]
      (Address.mk (some "me@x") none) [] true [] []).send
      (SentLog.mk (fun _ => none) []) true none 0 none (fun i => i)).log =
      SentLog.mk (fun _ => none) [] ∧
    ((Mailer.mk "s"
      [Recipient.mk (Address.mk (some "a@x") none) [] [] false,
       Recipient.mk (Address.mk (some "b@x") none) [] [] false]
      (Address.mk (some "me@x") none) [] true [] []).send
      (SentLog.mk (fun _ => none) []) false
      (some (Address.mk (some "me@x") none)) 0 none (fun i => i)).log =
      SentLog.mk (fun _ => none) [] ∧
    ((Mailer.mk "s"
      [Recipient.mk (Address.mk (some "a@x") none) [] [] false,
       Recipient.mk (Address.mk (some "b@x") none) [] [] false]
      (Address.mk (some "me@x") none) [] true [] []).send
      (SentLog.mk (fun _ => none) []) false none 0 none (fun i => i)).log =
      addAll (SentLog.mk (fun _ => none) [])
        (if (0 : Nat) = 0 then
          (Mailer.mk "s"
            [Recipient.mk (Address.mk (some "a@x") none) [] [] false,
             Recipient.mk (Address.mk (some "b@x") none) [] [] false]
            (Address.mk (some "me@x") none) [] true [] []).filter_recipients
            (SentLog.mk (fun _ => none) [])
          else []) (fun i => i) 0 ∧
    ((Mailer.mk "s"
      [Recipient.mk (Address.mk (some "a@x") none) [] [] false,
       Recipient.mk (Address.mk (some "b@x") none) [] [] false]
      (Address.mk (some "me@x") none) [] true [] []).test
      (SentLog.mk (fun _ => none) []) 0).1 = SentLog.mk (fun _ => none) [] := by
  refine ⟨?_, ?_, ?_, ?_⟩
  · exact (send_sentlog_exactly_on_real_delivery _ _ _ _ _ _ _).1 rfl
  · exact (send_sentlog_exactly_on_real_delivery _ _ _ _ _ _ _).2.1
      (Address.mk (some "me@x") none) rfl
  · exact (send_sentlog_exactly_on_real_delivery
      (Mailer.mk "s"
        [Recipient.mk (Address.mk (some "a@x") none) [] [] false,
         Recipient.mk (Address.mk (some "b@x") none) [] [] false]
        (Address.mk (some "me@x") none) [] true [] [])
      (SentLog.mk (fun _ => none) []) false none 0 none (fun i => i)).2.2.1
      rfl rfl
  · exact (send_sentlog_exactly_on_real_delivery
      (Mailer.mk "s"
        [Recipient.mk (Address.mk (some "a@x") none) [] [] false,
         Recipient.mk (Address.mk (some "b@x") none) [] [] false]
        (Address.mk (some "me@x") none) [] true [] [])
      (SentLog.mk (fun _ => none) []) true none 0 none (fun i => i)).2.2.2

end Mailst

namespace Mailst

/-- Counterexample to C4 as stated: a run over a single filtered recipient
with no cap (`max_num_emails = 0`) and a configured delay processes exactly
one message — the final one, the list being exhausted — and still sleeps
once after it, because the loop body reaches `time.sleep(delay)` whenever
the break on the cap is not taken. The claim predicts no delay after the
final message. -/
theorem send_delay_after_last_message :
    ((Mailer.mk "s" [Recipient.mk (Address.mk (some "a@x") none) [] [] false]
      (Address.mk (some "me@x") none) [] true [] []).send
      (SentLog.mk (fun _ => none) []) true none 0 (some 1)
      (fun _ => 0)).num_emails = 1 ∧
    ((Mailer.mk "s" [Recipient.mk (Address.mk (some "a@x") none) [] [] false]
      (Address.mk (some "me@x") none) [] true [] []).send
      (SentLog.mk (fun _ => none) []) true none 0 (some 1)
      (fun _ => 0)).delays = 1 ∧
    ¬ (((Mailer.mk "s" [Recipient.mk (Address.mk (some "a@x") none) [] [] false]
      (Address.mk (some "me@x") none) [] true [] []).send
      (SentLog.mk (fun _ => none) []) true none 0 (some 1)
      (fun _ => 0)).delays = 0) :=
  ⟨rfl, rfl, by decide⟩

/-- C4 (amended): with a delay configured, `send` sleeps once after every
processed message except the one that reaches the `max_num_emails` cap: the
number of sleeps is `cap - 1` when the cap is set and reached, and equals
the full number of processed messages otherwise — in particular, when the
run ends because the filtered recipient list is exhausted, a delay is also
applied after the final message. -/
theorem send_delay_between_messages_up_to_cap (m : Mailer) (log : SentLog)
    (simulate : Bool) (alt : Option Address) (cap : Nat) (d : Nat)
    (times : Nat → Nat) :
    (m.send log simulate alt cap (some d) times).delays =
      if cap ≠ 0 ∧ cap ≤ (m.filter_recipients log).length then cap - 1
      else (m.filter_recipients log).length := by
  unfold Mailer.send
  rw [sendLoop_delays _ _ _ _ _ _ _ _ _ (by omega)]
  by_cases h : cap ≠ 0 ∧ cap ≤ (m.filter_recipients log).length
  · rw [if_pos (by omega), if_pos h]
    omega
  · rw [if_neg (by omega), if_neg h]
    omega

/-- C10: binding a `FullNameColumn` sets `Address.full_name` to the last
value of the column's `as_dict` mapping — the uncapitalized derived name —
because the `for key, value in …` loop rebinds `value`; in particular the
raw input `JOSÉ` is not what ends up in `full_name`. -/
theorem set_column_full_name_is_uncapitalized :
    (∀ (r : Recipient) (key v : String),
      (r.set_column (FullNameColumn key) v).map (fun r2 => r2.address.full_name) =
        Except.ok (some (String.mk (uncapitalize v.data)))) ∧
    ((Recipient.mk (Address.mk none none) [] [] false).set_column
        (FullNameColumn "name") "JOSÉ").map (fun r2 => r2.address.full_name) ≠
      Except.ok (some "JOSÉ") := by
  constructor
  · intro r key v
    rfl
  · rw [show ((Recipient.mk (Address.mk none none) [] [] false).set_column
      (FullNameColumn "name") "JOSÉ").map (fun r2 => r2.address.full_name) =
      Except.ok (some (String.mk (uncapitalize "JOSÉ".data))) from rfl]
    intro h
    simp only [Except.ok.injEq, Option.some.injEq] at h
    exact absurd h (by decide)

end Mailst

namespace Mailst

/-- Witness for C10: binding the full-name column with the raw name
`ANA MARÍA` stores the uncapitalized `Ana María`, not the raw input. -/
theorem set_column_full_name_is_uncapitalized_witness :
    ((Recipient.mk (Address.mk none none) [] [] false).set_column
      (FullNameColumn "name") "ANA MARÍA").map (fun r2 => r2.address.full_name) =
      Except.ok (some (String.mk (uncapitalize "ANA MARÍA".data))) :=
  set_column_full_name_is_uncapitalized.1
    (Recipient.mk (Address.mk none none) [] [] false) "name" "ANA MARÍA"

end Mailst
